import Mathlib

/-!
# Verification of the Listings Enricher pipeline

Shallow embedding of the data-processing pipeline in
`src/React_Listings_Enricher.jsx` (the `enrichListings` function and the
utilities it uses), together with proofs of the specified properties.

Modelling conventions:
* JavaScript numbers are modelled by `JSNum`: an exact rational, `NaN`,
  `Infinity` or `-Infinity`.  Double-precision rounding and negative zero
  are abstracted away (all concrete inputs considered are exactly
  representable and no claim depends on them).
* Field values coming out of the CSV parser (Papaparse with
  `dynamicTyping: false`) are strings; an absent column is `Option.none`.
* `Number(string)` is modelled by `strToNumber`, implementing the
  ECMAScript string-to-number conversion for decimal literals and
  `Infinity` (non-decimal `0x`/`0o`/`0b` literals do not occur in the
  inputs considered and are mapped to `NaN`).
* `String.prototype.toLowerCase` and whitespace trimming are modelled on
  ASCII (all inputs considered are ASCII).
* JavaScript `Map` (insertion-ordered, `set` replaces in place) is
  modelled by an association list with `mapSet` / `mapGet`.
* `Array.prototype.sort` with comparator `(a, b) => a.price - b.price`
  (required stable since ES2019) is modelled by a stable insertion sort
  using the same comparator.

All rational arithmetic is routed through `Rat.divInt` on numerators and
denominators so that every definition evaluates inside the kernel; bridge
lemmas relate these to the ordinary field operations on `ℚ`.
-/

/-- A JavaScript number: a finite (exact) rational, `NaN`, or a signed
infinity. -/
inductive JSNum where
  | finite (q : ℚ)
  | nan
  | inf
  | negInf
deriving DecidableEq, Repr

namespace JSNum

/-- `Number.isFinite`. -/
def isFinite : JSNum → Bool
  | .finite _ => true
  | _ => false

/-- The rational value of a finite `JSNum` (junk `0` on non-finite values;
only used under an `isFinite` hypothesis). -/
def toQ : JSNum → ℚ
  | .finite q => q
  | _ => 0

/-- JavaScript `<` on numbers: any comparison involving `NaN` is false. -/
def lt : JSNum → JSNum → Bool
  | .finite a, .finite b => decide (a < b)
  | .finite _, .inf => true
  | .negInf, .finite _ => true
  | .negInf, .inf => true
  | _, _ => false

end JSNum

/-- JavaScript subtraction (as used by the sort comparator). -/
def jsSub : JSNum → JSNum → JSNum
  | .nan, _ => .nan
  | _, .nan => .nan
  | .inf, .inf => .nan
  | .negInf, .negInf => .nan
  | .inf, _ => .inf
  | .negInf, _ => .negInf
  | .finite _, .inf => .negInf
  | .finite _, .negInf => .inf
  | .finite a, .finite b => .finite (Rat.divInt (a.num * b.den - b.num * a.den) (a.den * b.den))

/-- JavaScript division.  Division of a nonzero finite number by zero
yields a signed infinity; `0 / 0` yields `NaN`.  (Negative zero is not
modelled, see the header comment.) -/
def jsDiv : JSNum → JSNum → JSNum
  | .nan, _ => .nan
  | _, .nan => .nan
  | .inf, .inf => .nan
  | .inf, .negInf => .nan
  | .negInf, .inf => .nan
  | .negInf, .negInf => .nan
  | .inf, .finite b => if b < 0 then .negInf else .inf
  | .negInf, .finite b => if b < 0 then .inf else .negInf
  | .finite _, .inf => .finite 0
  | .finite _, .negInf => .finite 0
  | .finite a, .finite b =>
      if b = 0 then (if a = 0 then .nan else if a < 0 then .negInf else .inf)
      else .finite (Rat.divInt (a.num * b.den) (b.num * a.den))

/-- Rounding of a rational to the nearest integer, halves toward `+∞`
(the behaviour of `Math.round` on finite doubles), computed as
`⌊q + 1/2⌋` via a kernel-reducible floor division. -/
def roundQ (q : ℚ) : ℤ :=
  (2 * q.num + (q.den : ℤ)) / (2 * (q.den : ℤ))

/-- `Math.round`: identity on `NaN` and the infinities, nearest integer
(halves toward `+∞`) on finite values. -/
def jsRound : JSNum → JSNum
  | .finite q => .finite (roundQ q)
  | x => x

/-! ## String utilities (modelled at the character-list level so that they
evaluate inside the kernel) -/

/-- ASCII whitespace trimming, as performed by the ECMAScript
string-to-number conversion on its input. -/
def trimWs (s : String) : String :=
  String.mk (((s.data.dropWhile Char.isWhitespace).reverse.dropWhile Char.isWhitespace).reverse)

/-- `String.prototype.toLowerCase` (ASCII). -/
def jsToLowerCase (s : String) : String :=
  String.mk (s.data.map Char.toLower)

/-- `normalizeApn` (source line 46): strip every non-digit character,
`(apn || "").toString().replace(/\D+/g, "")`.  The argument is always a
string here (the schemas force string fields). -/
def normalizeApn (s : String) : String :=
  String.mk (s.data.filter Char.isDigit)

/-! ## The ECMAScript string-to-number conversion (`Number(string)`),
for decimal literals and Infinity -/

/-- Numeric value of a list of decimal digit characters. -/
def digitsToNat (ds : List Char) : ℕ :=
  ds.foldl (fun a c => a * 10 + (c.toNat - 48)) 0

/-- Parse the optional exponent part (`e`/`E`, optional sign, digits) of a
decimal literal.  `m` is the mantissa as an integer and `s` the number of
fractional digits already consumed; the value denoted is
`m * 10 ^ (exp - s)`.  Returns `none` when the remaining characters are
not a well-formed exponent part or are nonempty garbage. -/
def parseExpPart (m : ℤ) (s : ℕ) : List Char → Option ℚ
  | [] => some (Rat.divInt m ((10 : ℤ) ^ s))
  | e :: rest =>
      if e = 'e' ∨ e = 'E' then
        let signAndDigits : ℤ × List Char :=
          match rest with
          | '+' :: r => (1, r)
          | '-' :: r => (-1, r)
          | r => (1, r)
        let ds := signAndDigits.2.takeWhile Char.isDigit
        let tail := signAndDigits.2.dropWhile Char.isDigit
        if ds.isEmpty ∨ ¬ tail.isEmpty then none
        else
          let ex : ℤ := signAndDigits.1 * digitsToNat ds - s
          if 0 ≤ ex then some (Rat.divInt (m * (10 : ℤ) ^ ex.toNat) 1)
          else some (Rat.divInt m ((10 : ℤ) ^ (-ex).toNat))
      else none

/-- Parse an unsigned decimal literal `Digits [. Digits] [Exp]` or
`. Digits [Exp]`, rejecting trailing garbage. -/
def parseUnsignedDec (cs : List Char) : Option ℚ :=
  let ip := cs.takeWhile Char.isDigit
  let rest := cs.dropWhile Char.isDigit
  match rest with
  | '.' :: rest2 =>
      let fp := rest2.takeWhile Char.isDigit
      let rest3 := rest2.dropWhile Char.isDigit
      if ip.isEmpty && fp.isEmpty then none
      else
        parseExpPart ((digitsToNat ip * 10 ^ fp.length + digitsToNat fp : ℕ) : ℤ)
          fp.length rest3
  | _ =>
      if ip.isEmpty then none
      else parseExpPart ((digitsToNat ip : ℕ) : ℤ) 0 rest

/-- The ECMAScript `Number(string)` conversion (`ToNumber` on strings):
trim whitespace, empty means `0`, optional sign, then `Infinity` or a
decimal literal; anything else is `NaN`. -/
def strToNumber (s : String) : JSNum :=
  let t := trimWs s
  if t.data.isEmpty then .finite 0
  else
    let signAndBody : Bool × List Char :=
      match t.data with
      | '+' :: r => (false, r)
      | '-' :: r => (true, r)
      | r => (false, r)
    if signAndBody.2 = "Infinity".data then
      (if signAndBody.1 then .negInf else .inf)
    else
      match parseUnsignedDec signAndBody.2 with
      | some q => .finite (if signAndBody.1 then -q else q)
      | none => .nan

/-- `num` (source lines 47-50): `Number(v)` clamped to finite-or-`NaN`;
`const x = Number(v); return Number.isFinite(x) ? x : NaN`. -/
def num (s : String) : JSNum :=
  let x := strToNumber s
  if x.isFinite then x else .nan

/-! ## Data model

Raw records are the output of Papaparse with `header: true` and
`dynamicTyping: false`: every present field is a string, an absent column
is `none`.  `ListingSchema.parse` / `ClimateSchema.parse` model the Zod
schemas on source lines 23-39: they throw (here: return `Except.error`)
exactly when a required field is missing, and apply the declared
defaults. -/

/-- A parsed listing CSV row (string-valued fields, possibly absent). -/
structure RawListing where
  apn : Option String
  address : Option String
  city : Option String
  state : Option String
  zip : Option String
  price : Option String
  beds : Option String
  baths : Option String
  sqft : Option String
  status : Option String
deriving DecidableEq, Repr

/-- A parsed climate CSV row. -/
structure RawClimate where
  apn : Option String
  flood_zone : Option String
  avg_rain_inches : Option String
deriving DecidableEq, Repr

/-- A listing record accepted by `ListingSchema` (source lines 23-34). -/
structure Listing where
  apn : String
  address : String
  city : String
  state : String
  zip : String
  price : String
  beds : Option String
  baths : Option String
  sqft : String
  status : String
deriving DecidableEq, Repr

/-- A climate record accepted by `ClimateSchema` (source lines 35-39). -/
structure Climate where
  apn : String
  flood_zone : Option String
  avg_rain_inches : Option String
deriving DecidableEq, Repr

/-- Structural validity of a listing row: the required fields of
`ListingSchema` are present (`city`/`state` default to `""`,
`beds`/`baths` are optional and nullable). -/
def listingStructOk (r : RawListing) : Bool :=
  r.apn.isSome && r.address.isSome && r.zip.isSome && r.price.isSome
    && r.sqft.isSome && r.status.isSome

/-- Structural validity of a climate row: `apn` is present. -/
def climateStructOk (c : RawClimate) : Bool :=
  c.apn.isSome

/-- `ListingSchema.parse` (source line 58): fails on a missing required
field, defaults `city`/`state` to the empty string. -/
def ListingSchema.parse (r : RawListing) : Except String Listing :=
  match r.apn, r.address, r.zip, r.price, r.sqft, r.status with
  | some apn, some address, some zip, some price, some sqft, some status =>
      .ok { apn := apn, address := address, city := r.city.getD "",
            state := r.state.getD "", zip := zip, price := price,
            beds := r.beds, baths := r.baths, sqft := sqft, status := status }
  | _, _, _, _, _, _ => .error "ZodError: listing row failed structural validation"

/-- `ClimateSchema.parse` (source line 59). -/
def ClimateSchema.parse (c : RawClimate) : Except String Climate :=
  match c.apn with
  | some apn => .ok { apn := apn, flood_zone := c.flood_zone,
                      avg_rain_inches := c.avg_rain_inches }
  | none => .error "ZodError: climate row failed structural validation"

/-! ## JavaScript `Map` as an insertion-ordered association list -/

/-- `Map.prototype.set`: replace in place when the key exists (keeping its
original position), append otherwise. -/
def mapSet {α : Type} (m : List (String × α)) (k : String) (v : α) : List (String × α) :=
  if m.any (fun p => p.1 == k) then
    m.map (fun p => if p.1 == k then (k, v) else p)
  else m ++ [(k, v)]

/-- `Map.prototype.get` (`none` models `undefined`). -/
def mapGet {α : Type} (m : List (String × α)) (k : String) : Option α :=
  (m.find? (fun p => p.1 == k)).map (fun p => p.2)

/-! ## Pipeline stage 1: the climate index (source lines 61-69) -/

/-- The value stored in the climate index for one row. -/
structure ClimateEntry where
  flood_zone : Option String
  avg_rain_inches : Option JSNum
deriving DecidableEq, Repr

/-- The entry built from one climate row:
`flood_zone: c.flood_zone || null` (empty string is falsy) and
`avg_rain_inches: c.avg_rain_inches == null || c.avg_rain_inches === "" ?
null : num(c.avg_rain_inches)` (source lines 66-67). -/
def climateEntryOf (c : Climate) : ClimateEntry :=
  { flood_zone :=
      match c.flood_zone with
      | none => none
      | some s => if s = "" then none else some s
    avg_rain_inches :=
      match c.avg_rain_inches with
      | none => none
      | some s => if s = "" then none else some (num s) }

/-- One iteration of the climate-index loop (source lines 62-69):
skip rows whose normalized identifier is empty, otherwise `Map.set`. -/
def climateIndexStep (m : List (String × ClimateEntry)) (c : Climate) :
    List (String × ClimateEntry) :=
  let napn := normalizeApn c.apn
  if napn = "" then m else mapSet m napn (climateEntryOf c)

/-- `climateIndex` (source lines 61-69). -/
def buildClimateIndex (rows : List Climate) : List (String × ClimateEntry) :=
  rows.foldl climateIndexStep []

/-! ## Pipeline stage 2: validate/coerce/filter listings (source lines 71-82) -/

/-- A cleaned listing candidate (the `row` object on source line 78). -/
structure Candidate where
  apn : String
  address : String
  city : String
  state : String
  zip : String
  napn : String
  price : JSNum
  sqft : JSNum
  beds : Option JSNum
  baths : Option JSNum
  status : String
deriving DecidableEq, Repr

/-- `r.beds ? num(r.beds) : null`: a missing or empty string is falsy
(`null` result); any other string is coerced. -/
def coerceOptNum (v : Option String) : Option JSNum :=
  match v with
  | none => none
  | some s => if s = "" then none else some (num s)

/-- The allowed status set (source line 22). -/
def allowedStatuses : List String := ["for_sale", "pending", "sold"]

/-- The body of the cleaning loop (source lines 72-81): coerce fields,
then drop the row (`none`) when a completeness or status check fails. -/
def cleanListing (r : Listing) : Option Candidate :=
  let napn := normalizeApn r.apn
  let status := jsToLowerCase r.status
  let price := num r.price
  let sqft := num r.sqft
  let row : Candidate :=
    { apn := r.apn, address := r.address, city := r.city, state := r.state,
      zip := r.zip, napn := napn, price := price, sqft := sqft,
      beds := coerceOptNum r.beds, baths := coerceOptNum r.baths, status := status }
  if napn = "" || r.address = "" || r.zip = "" || !price.isFinite || !sqft.isFinite then
    none
  else if !(allowedStatuses.contains status) then
    none
  else
    some row

/-- The `cleaned` array (source lines 71-82). -/
def cleanListings (rows : List Listing) : List Candidate :=
  rows.filterMap cleanListing

/-! ## Pipeline stage 3: deduplication by normalized APN (source lines 84-88) -/

/-- One iteration of the dedup loop: keep the incumbent unless the new
row's price is strictly lower (`r.price < existing.price`). -/
def dedupStep (m : List (String × Candidate)) (r : Candidate) :
    List (String × Candidate) :=
  match mapGet m r.napn with
  | none => mapSet m r.napn r
  | some existing => if JSNum.lt r.price existing.price then mapSet m r.napn r else m

/-- `bestByApn` (source lines 84-88). -/
def bestByApn (l : List Candidate) : List (String × Candidate) :=
  l.foldl dedupStep []

/-- `bestByApn.values()` in insertion order of first key occurrence. -/
def dedupListings (l : List Candidate) : List Candidate :=
  (bestByApn l).map (fun p => p.2)

/-! ## Pipeline stage 4: enrichment (source lines 90-105) -/

/-- An output row. -/
structure EnrichedRow where
  apn : String
  full_address : String
  price : JSNum
  beds : Option JSNum
  baths : Option JSNum
  sqft : JSNum
  price_per_sqft : JSNum
  status : String
  flood_zone : Option String
  avg_rain_inches : Option JSNum
deriving DecidableEq, Repr

/-- Enrichment of one deduplicated candidate (source lines 91-104):
left lookup into the climate index with a `{flood_zone: null,
avg_rain_inches: null}` fallback, plus the two derived fields. -/
def enrichOne (idx : List (String × ClimateEntry)) (r : Candidate) : EnrichedRow :=
  let climate := (mapGet idx r.napn).getD { flood_zone := none, avg_rain_inches := none }
  { apn := r.apn
    full_address := r.address ++ ", " ++ r.city ++ ", " ++ r.state ++ " " ++ r.zip
    price := r.price
    beds := r.beds
    baths := r.baths
    sqft := r.sqft
    price_per_sqft := jsRound (jsDiv r.price r.sqft)
    status := r.status
    flood_zone := climate.flood_zone
    avg_rain_inches := climate.avg_rain_inches }

/-! ## Pipeline stage 5: sort by ascending price (source line 107)

`enriched.sort((a, b) => a.price - b.price)`: `Array.prototype.sort` is
required to be stable, so its observable behaviour with this comparator
is the unique stable reordering that is sorted by price; it is realized
here as a stable insertion sort driven by the same comparator. -/

/-- `sortLe a b` holds when the comparator `a.price - b.price` returns a
value `≤ 0` (a `NaN` comparator result is treated as `0` by the sort
algorithm), i.e. when `a` may be placed before `b`. -/
def sortLe (a b : EnrichedRow) : Bool :=
  match jsSub a.price b.price with
  | .finite q => decide (q ≤ 0)
  | .negInf => true
  | .nan => true
  | .inf => false

/-- Stable insertion of a row coming earlier in the input than the
already-sorted rows. -/
def insertByPrice (x : EnrichedRow) : List EnrichedRow → List EnrichedRow
  | [] => [x]
  | y :: ys => if sortLe x y then x :: y :: ys else y :: insertByPrice x ys

/-- The stable sort of source line 107. -/
def sortByPrice : List EnrichedRow → List EnrichedRow
  | [] => []
  | x :: xs => insertByPrice x (sortByPrice xs)

/-! ## The whole pipeline (`enrichListings`, source lines 54-109) -/

/-- The pipeline after schema validation. -/
def enrichedPipeline (listingRows : List Listing) (climateRows : List Climate) :
    List EnrichedRow :=
  let climateIndex := buildClimateIndex climateRows
  let cleaned := cleanListings listingRows
  let deduped := dedupListings cleaned
  let enriched := deduped.map (enrichOne climateIndex)
  sortByPrice enriched

/-- `array.map(r => f(r))` over a throwing `f`: the first exception
aborts the whole map. -/
def mapExcept {α β : Type} (f : α → Except String β) : List α → Except String (List β)
  | [] => .ok []
  | a :: l =>
      match f a with
      | .error e => .error e
      | .ok b =>
          match mapExcept f l with
          | .error e => .error e
          | .ok bs => .ok (b :: bs)

/-- `enrichListings` (source lines 54-109), as invoked by `process`
(source lines 131-139): a schema failure on any row aborts the whole run
with a single error and no output. -/
def enrichListings (listingsRaw : List RawListing) (climateRaw : List RawClimate) :
    Except String (List EnrichedRow) :=
  match mapExcept ListingSchema.parse listingsRaw with
  | .error e => .error e
  | .ok listingRows =>
      match mapExcept ClimateSchema.parse climateRaw with
      | .error e => .error e
      | .ok climateRows => .ok (enrichedPipeline listingRows climateRows)

/-! ## Demo fixtures (rows of the demo data on source lines 42-43,
plus variants used in the analysis) -/

/-- Demo listing: `12-34-567890` at price 450000. -/
def oakStRow : Listing :=
  { apn := "12-34-567890", address := "12 Oak St", city := "Orlando", state := "FL",
    zip := "32801", price := "450000", beds := some "3", baths := some "2",
    sqft := "1600", status := "for_sale" }

/-- Demo listing: the duplicate `12-34-567890` at price 440000. -/
def oakStCheaperRow : Listing :=
  { oakStRow with price := "440000" }

/-- Demo listing: mixed-case status `"Pending"`. -/
def pineAveRow : Listing :=
  { apn := "55-66-777888", address := "99 Pine Ave", city := "Miami", state := "FL",
    zip := "33101", price := "800000", beds := some "4", baths := some "3",
    sqft := "2200", status := "Pending" }

/-- The candidate produced for `pineAveRow` by the cleaning stage. -/
def pineAveCandidate : Candidate :=
  { apn := "55-66-777888", address := "99 Pine Ave", city := "Miami", state := "FL",
    zip := "33101", napn := "5566777888", price := .finite 800000,
    sqft := .finite 2200, beds := some (.finite 4), baths := some (.finite 3),
    status := "pending" }

/-! ## Per-key view of the dedup fold, and concrete fixtures -/

/-- A structurally valid listing whose status is `"pending "` (trailing
space). -/
def pendingSpaceRow : Listing :=
  { pineAveRow with status := "pending " }

/-- Witness data for the sort claim: two equal-priced rows in enrichment
order, plus a cheaper one. -/
def enrichedDemoRows : List EnrichedRow :=
  [ { apn := "A", full_address := "1 A St, X, Y 1", price := .finite 800000,
      beds := none, baths := none, sqft := .finite 2000,
      price_per_sqft := .finite 400, status := "for_sale",
      flood_zone := none, avg_rain_inches := none },
    { apn := "B", full_address := "2 B St, X, Y 2", price := .finite 800000,
      beds := none, baths := none, sqft := .finite 1600,
      price_per_sqft := .finite 500, status := "sold",
      flood_zone := none, avg_rain_inches := none },
    { apn := "C", full_address := "3 C St, X, Y 3", price := .finite 500000,
      beds := none, baths := none, sqft := .finite 1000,
      price_per_sqft := .finite 500, status := "sold",
      flood_zone := none, avg_rain_inches := none } ]

/-- One step of the per-key view of the dedup fold. -/
def firstMinStep (acc : Option Candidate) (r : Candidate) : Option Candidate :=
  match acc with
  | none => some r
  | some b => if JSNum.lt r.price b.price then some r else some b

/-- The first candidate of minimal price in a list (ties keep the
earlier element). -/
def firstMin : List Candidate → Option Candidate
  | [] => none
  | r :: rs =>
      match firstMin rs with
      | none => some r
      | some m => if JSNum.lt m.price r.price then some m else some r

/-- The candidates produced by cleaning the two demo `12-34-567890`
rows. -/
def oakStCandidate : Candidate :=
  { apn := "12-34-567890", address := "12 Oak St", city := "Orlando", state := "FL",
    zip := "32801", napn := "1234567890", price := .finite 450000,
    sqft := .finite 1600, beds := some (.finite 3), baths := some (.finite 2),
    status := "for_sale" }

/-- The cheaper duplicate (price 440000). -/
def oakStCheaperCandidate : Candidate :=
  { oakStCandidate with price := .finite 440000 }

/-- Listing joined against the defective climate row. -/
def rainBugListing : Listing :=
  { apn := "1", address := "1 A St", city := "", state := "", zip := "9",
    price := "100", beds := none, baths := none, sqft := "10", status := "sold" }

/-- Climate row whose `avg_rain_inches` is present and non-empty but not
a number. -/
def rainBugClimate : Climate :=
  { apn := "1", flood_zone := some "X", avg_rain_inches := some "abc" }

/-- A structurally valid listing with `sqft = "0"`: `Number("0") = 0` is
finite, so the filter keeps it. -/
def zeroSqftListing : Listing :=
  { apn := "7", address := "1 B St", city := "", state := "", zip := "8",
    price := "100000", beds := none, baths := none, sqft := "0", status := "sold" }

/-- The demo climate row for key `1234567890`. -/
def oakStClimate : Climate :=
  { apn := "1234567890", flood_zone := some "AE", avg_rain_inches := some "52.1" }

/-- The single row the pipeline outputs for the two demo `12-34-567890`
listings joined with `oakStClimate`. -/
def oakStEnrichedRow : EnrichedRow :=
  { apn := "12-34-567890", full_address := "12 Oak St, Orlando, FL 32801",
    price := .finite 440000, beds := some (.finite 3), baths := some (.finite 2),
    sqft := .finite 1600, price_per_sqft := .finite 275, status := "for_sale",
    flood_zone := some "AE", avg_rain_inches := some (.finite (Rat.divInt 521 10)) }

/-! ## Bridge lemmas: divInt-based arithmetic vs. field operations on ℚ -/

theorem jsSub_finite (a b : ℚ) : jsSub (.finite a) (.finite b) = .finite (a - b) := by
  have had : ((a.den : ℚ)) ≠ 0 := by exact_mod_cast a.den_nz
  have hbd : ((b.den : ℚ)) ≠ 0 := by exact_mod_cast b.den_nz
  have ha : (a.num : ℚ) = a * a.den := (div_eq_iff had).mp (Rat.num_div_den a)
  have hb : (b.num : ℚ) = b * b.den := (div_eq_iff hbd).mp (Rat.num_div_den b)
  rw [show jsSub (.finite a) (.finite b)
        = .finite (Rat.divInt (a.num * b.den - b.num * a.den) (a.den * b.den)) from rfl]
  congr 1
  rw [Rat.divInt_eq_div]
  push_cast
  rw [div_eq_iff (mul_ne_zero had hbd), ha, hb]
  ring

theorem jsDiv_finite (a b : ℚ) (hb : b ≠ 0) :
    jsDiv (.finite a) (.finite b) = .finite (a / b) := by
  have had : ((a.den : ℚ)) ≠ 0 := by exact_mod_cast a.den_nz
  have hbd : ((b.den : ℚ)) ≠ 0 := by exact_mod_cast b.den_nz
  have hbn : (b.num : ℚ) ≠ 0 := by exact_mod_cast Rat.num_ne_zero.mpr hb
  have ha : (a.num : ℚ) = a * a.den := (div_eq_iff had).mp (Rat.num_div_den a)
  have hb2 : (b.num : ℚ) = b * b.den := (div_eq_iff hbd).mp (Rat.num_div_den b)
  rw [show jsDiv (.finite a) (.finite b)
        = (if b = 0 then (if a = 0 then JSNum.nan else if a < 0 then JSNum.negInf else JSNum.inf)
           else JSNum.finite (Rat.divInt (a.num * b.den) (b.num * a.den))) from rfl]
  rw [if_neg hb]
  congr 1
  rw [Rat.divInt_eq_div]
  push_cast
  rw [div_eq_div_iff (mul_ne_zero hbn had) hb, ha, hb2]
  ring

theorem roundQ_eq_floor (q : ℚ) : roundQ q = ⌊q + 1 / 2⌋ := by
  have had : ((q.den : ℚ)) ≠ 0 := by exact_mod_cast q.den_nz
  have hnum : (q.num : ℚ) = q * q.den := (div_eq_iff had).mp (Rat.num_div_den q)
  have hq : q + 1 / 2 = ((2 * q.num + (q.den : ℤ) : ℤ) : ℚ) / ((2 * q.den : ℕ) : ℚ) := by
    push_cast
    rw [eq_div_iff (mul_ne_zero two_ne_zero had), hnum]
    ring
  rw [roundQ, hq, Rat.floor_intCast_div_natCast]
  push_cast
  ring_nf

theorem JSNum.lt_iff_toQ (a b : ℚ) :
    JSNum.lt (.finite a) (.finite b) = decide (a < b) := rfl

/-! ## Generic lemmas about the `Map` model -/

theorem find?_map_mapSetFn {α : Type} (m : List (String × α)) (k : String) (v : α) :
    (m.map (fun p => if p.1 == k then (k, v) else p)).find? (fun p => p.1 == k)
      = ((m.find? (fun p => p.1 == k)).map (fun _ => (k, v))) := by
  induction m with
  | nil => rfl
  | cons p m ih =>
    by_cases hp : p.1 == k
    · have hfp : (if p.1 == k then (k, v) else p) = (k, v) := by simp [hp]
      have h1 : List.find? (fun q => q.1 == k)
          ((k, v) :: List.map (fun p => if p.1 == k then (k, v) else p) m)
            = some (k, v) := List.find?_cons_of_pos _ (by simp)
      have h2 : List.find? (fun q => q.1 == k) (p :: m) = some p :=
        List.find?_cons_of_pos _ hp
      rw [List.map_cons, hfp, h1, h2]
      rfl
    · have hfp : (if p.1 == k then (k, v) else p) = p := by simp [hp]
      have h1 : List.find? (fun q => q.1 == k)
          (p :: List.map (fun p => if p.1 == k then (k, v) else p) m)
            = List.find? (fun q => q.1 == k)
                (List.map (fun p => if p.1 == k then (k, v) else p) m) :=
        List.find?_cons_of_neg _ hp
      have h2 : List.find? (fun q => q.1 == k) (p :: m)
          = List.find? (fun q => q.1 == k) m := List.find?_cons_of_neg _ hp
      rw [List.map_cons, hfp, h1, h2, ih]

theorem any_eq_find?_isSome {α : Type} (m : List (String × α)) (k : String) :
    m.any (fun p => p.1 == k) = (m.find? (fun p => p.1 == k)).isSome := by
  induction m with
  | nil => rfl
  | cons p m ih =>
    by_cases hp : p.1 == k
    · simp [List.find?, hp]
    · simp [List.find?, hp, ih]

theorem mapGet_mapSet_self {α : Type} (m : List (String × α)) (k : String) (v : α) :
    mapGet (mapSet m k v) k = some v := by
  unfold mapGet mapSet
  by_cases hany : m.any (fun p => p.1 == k)
  · rw [if_pos hany, find?_map_mapSetFn]
    rw [any_eq_find?_isSome] at hany
    obtain ⟨p, hp⟩ := Option.isSome_iff_exists.mp hany
    simp [hp]
  · rw [if_neg hany, List.find?_append]
    rw [any_eq_find?_isSome] at hany
    have : m.find? (fun p => p.1 == k) = none := by
      cases h : m.find? (fun p => p.1 == k) with
      | none => rfl
      | some p => rw [h] at hany; simp at hany
    simp [this, List.find?]

theorem find?_map_mapSetFn_ne {α : Type} (m : List (String × α)) (k k' : String) (v : α)
    (hkk : (k == k') = false) :
    (m.map (fun p => if p.1 == k then (k, v) else p)).find? (fun p => p.1 == k')
      = m.find? (fun p => p.1 == k') := by
  induction m with
  | nil => rfl
  | cons p m ih =>
    by_cases hp : p.1 == k
    · have hpk : p.1 = k := by simpa using hp
      have hfp : (if p.1 == k then (k, v) else p) = (k, v) := by simp [hp]
      have h1 : List.find? (fun q => q.1 == k')
          ((k, v) :: List.map (fun p => if p.1 == k then (k, v) else p) m)
            = List.find? (fun q => q.1 == k')
                (List.map (fun p => if p.1 == k then (k, v) else p) m) :=
        List.find?_cons_of_neg _ (by simp [hkk])
      have h2 : List.find? (fun q => q.1 == k') (p :: m)
          = List.find? (fun q => q.1 == k') m :=
        List.find?_cons_of_neg _ (by simp [hpk, hkk])
      rw [List.map_cons, hfp, h1, h2, ih]
    · have hfp : (if p.1 == k then (k, v) else p) = p := by simp [hp]
      rw [List.map_cons, hfp]
      cases hp' : p.1 == k'
      · have h1 : List.find? (fun q => q.1 == k')
            (p :: List.map (fun p => if p.1 == k then (k, v) else p) m)
              = List.find? (fun q => q.1 == k')
                  (List.map (fun p => if p.1 == k then (k, v) else p) m) :=
          List.find?_cons_of_neg _ (by simp [hp'])
        have h2 : List.find? (fun q => q.1 == k') (p :: m)
            = List.find? (fun q => q.1 == k') m :=
          List.find?_cons_of_neg _ (by simp [hp'])
        rw [h1, h2, ih]
      · have h1 : List.find? (fun q => q.1 == k')
            (p :: List.map (fun p => if p.1 == k then (k, v) else p) m) = some p :=
          List.find?_cons_of_pos _ (by simp [hp'])
        have h2 : List.find? (fun q => q.1 == k') (p :: m) = some p :=
          List.find?_cons_of_pos _ (by simp [hp'])
        rw [h1, h2]

theorem mapGet_mapSet_ne {α : Type} (m : List (String × α)) (k k' : String) (v : α)
    (hne : k ≠ k') : mapGet (mapSet m k v) k' = mapGet m k' := by
  have hkk : (k == k') = false := by simpa using hne
  unfold mapGet mapSet
  by_cases hany : m.any (fun p => p.1 == k)
  · rw [if_pos hany, find?_map_mapSetFn_ne _ _ _ _ hkk]
  · rw [if_neg hany, List.find?_append]
    have : List.find? (fun p => p.1 == k') [(k, v)] = none := by
      simp [List.find?, hkk]
    simp [this]

theorem mapGet_nil {α : Type} (k : String) : mapGet ([] : List (String × α)) k = none := rfl

/-! ## Claim C9: structural validation is fatal to the whole run -/

theorem mapExcept_ok_iff {α β : Type} (f : α → Except String β) (l : List α) :
    (∃ out, mapExcept f l = .ok out) ↔ ∀ x ∈ l, ∃ y, f x = .ok y := by
  induction l with
  | nil => simp [mapExcept]
  | cons a l ih =>
    constructor
    · rintro ⟨out, hout⟩ x hx
      rw [mapExcept] at hout
      cases hfa : f a with
      | error e => rw [hfa] at hout; exact absurd hout (by simp)
      | ok y =>
        rw [hfa] at hout
        cases hml : mapExcept f l with
        | error e => rw [hml] at hout; exact absurd hout (by simp)
        | ok ys =>
          rcases List.mem_cons.mp hx with rfl | hxl
          · exact ⟨y, hfa⟩
          · exact ih.mp ⟨ys, hml⟩ x hxl
    · intro h
      obtain ⟨y, hy⟩ := h a (List.mem_cons_self a l)
      obtain ⟨ys, hys⟩ := ih.mpr (fun x hx => h x (List.mem_cons_of_mem _ hx))
      exact ⟨y :: ys, by rw [mapExcept, hy, hys]⟩

theorem listingParse_ok_iff (r : RawListing) :
    (∃ x, ListingSchema.parse r = .ok x) ↔ listingStructOk r = true := by
  unfold ListingSchema.parse listingStructOk
  cases r.apn <;> cases r.address <;> cases r.zip <;> cases r.price
    <;> cases r.sqft <;> cases r.status <;> simp

theorem climateParse_ok_iff (c : RawClimate) :
    (∃ x, ClimateSchema.parse c = .ok x) ↔ climateStructOk c = true := by
  unfold ClimateSchema.parse climateStructOk
  cases c.apn <;> simp

/-- C9: the run succeeds (producing output, with no error) exactly when
every listing row and every climate row is structurally valid; any
structurally invalid row makes the whole `enrichListings` call fail with
a single error and no partial output. -/
theorem structural_validation_fatal (L : List RawListing) (C : List RawClimate) :
    (∃ out, enrichListings L C = .ok out) ↔
      ((∀ r ∈ L, listingStructOk r = true) ∧ (∀ c ∈ C, climateStructOk c = true)) := by
  constructor
  · rintro ⟨out, hout⟩
    rw [enrichListings] at hout
    cases hL : mapExcept ListingSchema.parse L with
    | error e => rw [hL] at hout; exact absurd hout (by simp)
    | ok rows =>
      rw [hL] at hout
      cases hC : mapExcept ClimateSchema.parse C with
      | error e => rw [hC] at hout; exact absurd hout (by simp)
      | ok crows =>
        refine ⟨fun r hr => ?_, fun c hc => ?_⟩
        · exact (listingParse_ok_iff r).mp
            ((mapExcept_ok_iff ListingSchema.parse L).mp ⟨rows, hL⟩ r hr)
        · exact (climateParse_ok_iff c).mp
            ((mapExcept_ok_iff ClimateSchema.parse C).mp ⟨crows, hC⟩ c hc)
  · rintro ⟨hL, hC⟩
    obtain ⟨rows, hrows⟩ := (mapExcept_ok_iff ListingSchema.parse L).mpr
      (fun r hr => (listingParse_ok_iff r).mpr (hL r hr))
    obtain ⟨crows, hcrows⟩ := (mapExcept_ok_iff ClimateSchema.parse C).mpr
      (fun c hc => (climateParse_ok_iff c).mpr (hC c hc))
    exact ⟨enrichedPipeline rows crows, by rw [enrichListings, hrows, hcrows]⟩

/-! ## Claim C2: the listing filter drops a structurally valid record
exactly on the six business-rule conditions, silently -/

/-- C2: `cleanListing` returns `none` (silent drop, no error) precisely
when the normalized APN, address or zip is empty, a coerced numeric field
is not finite, or the lower-cased status is outside the allowlist; and
any retained candidate carries the lower-cased status (so `"Pending"` is
retained as `"pending"`). -/
theorem cleanListing_drops_iff (r : Listing) :
    (cleanListing r = none ↔
      normalizeApn r.apn = "" ∨ r.address = "" ∨ r.zip = "" ∨
      (num r.price).isFinite = false ∨ (num r.sqft).isFinite = false ∨
      jsToLowerCase r.status ∉ allowedStatuses) ∧
    (∀ c, cleanListing r = some c → c.status = jsToLowerCase r.status) := by
  constructor
  · unfold cleanListing
    dsimp only
    split
    · rename_i hcond
      simp only [Bool.or_eq_true, decide_eq_true_eq, Bool.not_eq_eq_eq_not,
        Bool.not_true] at hcond
      simp only [true_iff]
      tauto
    · rename_i hcond
      simp only [Bool.or_eq_true, decide_eq_true_eq, Bool.not_eq_eq_eq_not,
        Bool.not_true, not_or] at hcond
      obtain ⟨⟨⟨⟨h1, h2⟩, h3⟩, h4⟩, h5⟩ := hcond
      split
      · rename_i hst
        simp only [Bool.not_eq_eq_eq_not, Bool.not_true] at hst
        have : jsToLowerCase r.status ∉ allowedStatuses := by
          intro hmem
          rw [List.contains_eq_any_beq] at hst
          have : allowedStatuses.any (jsToLowerCase r.status == ·) = true := by
            exact List.any_eq_true.mpr ⟨_, hmem, by simp⟩
          rw [this] at hst
          exact absurd hst (by simp)
        simp only [true_iff]
        exact Or.inr (Or.inr (Or.inr (Or.inr (Or.inr this))))
      · rename_i hst
        simp only [Bool.not_eq_eq_eq_not, Bool.not_true, Bool.not_eq_false] at hst
        have hmem : jsToLowerCase r.status ∈ allowedStatuses := by
          rw [List.contains_eq_any_beq] at hst
          obtain ⟨s, hs, hbeq⟩ := List.any_eq_true.mp hst
          have : jsToLowerCase r.status = s := by simpa using hbeq
          rwa [this]
        simp only [reduceCtorEq, false_iff, not_or, not_not]
        refine ⟨?_, ?_, ?_, ?_, ?_, ?_⟩
        · simpa using h1
        · simpa using h2
        · simpa using h3
        · simpa using h4
        · simpa using h5
        · simpa using hmem
  · intro c hc
    unfold cleanListing at hc
    dsimp only at hc
    split at hc
    · exact absurd hc (by simp)
    · split at hc
      · exact absurd hc (by simp)
      · cases hc
        rfl


/-- Witness for C2: the demo row with mixed-case status `"Pending"` is
retained and its output status is the lower-cased `"pending"`. -/
theorem cleanListing_drops_iff_witness :
    pineAveCandidate.status = jsToLowerCase pineAveRow.status :=
  (cleanListing_drops_iff pineAveRow).2 pineAveCandidate (by decide)

/-! ## Claim C10 (whitespace): the status allowlist check lower-cases but
never trims -/

/-- C10: a listing whose status differs from an allowed status only by
surrounding whitespace is dropped by the filter: the status is
lower-cased but never trimmed before the allowlist membership check. -/
theorem status_whitespace_not_trimmed :
    trimWs (jsToLowerCase pendingSpaceRow.status) ∈ allowedStatuses ∧
    cleanListing pendingSpaceRow = none ∧
    (cleanListing { pendingSpaceRow with status := "pending" }).isSome = true :=
  ⟨by decide, by decide, by decide⟩

/-! ## Claim C8: climate index discards empty keys; duplicates are
last-wins -/

theorem buildClimateIndex_keys_nonempty (crows : List Climate) :
    ∀ p ∈ buildClimateIndex crows, p.1 ≠ "" := by
  unfold buildClimateIndex
  suffices h : ∀ (m : List (String × ClimateEntry)), (∀ p ∈ m, p.1 ≠ "") →
      ∀ p ∈ crows.foldl climateIndexStep m, p.1 ≠ "" by
    exact h [] (by simp)
  induction crows with
  | nil => intro m hm; simpa using hm
  | cons c crows ih =>
    intro m hm
    rw [List.foldl_cons]
    refine ih _ ?_
    unfold climateIndexStep
    dsimp only
    split
    · exact hm
    · rename_i hnapn
      intro p hp
      unfold mapSet at hp
      split at hp
      · obtain ⟨q, hq, hqp⟩ := List.mem_map.mp hp
        by_cases hqk : q.1 == normalizeApn c.apn
        · rw [if_pos hqk] at hqp
          rw [← hqp]
          exact hnapn
        · rw [if_neg hqk] at hqp
          exact hqp ▸ hm q hq
      · rcases List.mem_append.mp hp with h | h
        · exact hm p h
        · rw [List.mem_singleton.mp h]
          exact hnapn

theorem mapGet_of_forall_ne {α : Type} (m : List (String × α)) (k : String)
    (h : ∀ p ∈ m, p.1 ≠ k) : mapGet m k = none := by
  unfold mapGet
  have : m.find? (fun p => p.1 == k) = none :=
    List.find?_eq_none.mpr (fun p hp => by simpa using h p hp)
  rw [this]
  rfl

/-- C8: the climate index never contains the empty key, and for a
non-empty key it holds the attributes of the *last* climate row (in input
order) whose normalized identifier equals that key (last-wins, in
contrast with the first-wins listing dedup rule). -/
theorem climateIndex_last_wins (crows : List Climate) (k : String) :
    mapGet (buildClimateIndex crows) k =
      if k = "" then none
      else ((crows.filter (fun c => normalizeApn c.apn == k)).getLast?).map climateEntryOf := by
  by_cases hk : k = ""
  · rw [if_pos hk, hk]
    exact mapGet_of_forall_ne _ _ (buildClimateIndex_keys_nonempty crows)
  · rw [if_neg hk]
    induction crows using List.reverseRecOn with
    | nil => rfl
    | append_singleton crows c ih =>
      have hstep : buildClimateIndex (crows ++ [c])
          = climateIndexStep (buildClimateIndex crows) c := by
        unfold buildClimateIndex
        rw [List.foldl_append, List.foldl_cons, List.foldl_nil]
      rw [hstep, List.filter_append]
      unfold climateIndexStep
      dsimp only
      split
      · rename_i hnapn
        have hke : ("" == k) = false := by simpa using (Ne.symm hk)
        have : (List.filter (fun c => normalizeApn c.apn == k) [c]) = [] := by
          simp only [List.filter, hnapn, hke]
        rw [this, List.append_nil, ih]
      · rename_i hnapn
        by_cases hck : normalizeApn c.apn = k
        · rw [hck, mapGet_mapSet_self]
          have : (List.filter (fun c => normalizeApn c.apn == k) [c]) = [c] := by
            simp [List.filter, hck]
          rw [this, List.getLast?_concat]
          rfl
        · rw [mapGet_mapSet_ne _ _ _ _ hck, ih]
          have hckf : (normalizeApn c.apn == k) = false := by simpa using hck
          have : (List.filter (fun c => normalizeApn c.apn == k) [c]) = [] := by
            simp only [List.filter, hckf]
          rw [this, List.append_nil]

/-! ## The sort stage: permutation, sortedness, stability -/

theorem insertByPrice_perm (x : EnrichedRow) (l : List EnrichedRow) :
    (insertByPrice x l).Perm (x :: l) := by
  induction l with
  | nil => exact List.Perm.refl _
  | cons y ys ih =>
    unfold insertByPrice
    split
    · exact List.Perm.refl _
    · exact ((ih.cons y).trans (List.Perm.swap x y ys))

theorem sortByPrice_perm (l : List EnrichedRow) : (sortByPrice l).Perm l := by
  induction l with
  | nil => exact List.Perm.refl _
  | cons x xs ih =>
    unfold sortByPrice
    exact (insertByPrice_perm x (sortByPrice xs)).trans (ih.cons x)

theorem sortLe_iff (a b : EnrichedRow) (ha : a.price.isFinite = true)
    (hb : b.price.isFinite = true) :
    sortLe a b = decide (a.price.toQ ≤ b.price.toQ) := by
  cases hpa : a.price with
  | finite qa =>
    cases hpb : b.price with
    | finite qb =>
      unfold sortLe
      rw [hpa, hpb, jsSub_finite, JSNum.toQ, JSNum.toQ]
      have : (qa - qb ≤ 0) = (qa ≤ qb) := by
        rw [eq_iff_iff]
        exact sub_nonpos
      simp only [this]
    | nan => rw [hpb] at hb; exact absurd hb (by simp [JSNum.isFinite])
    | inf => rw [hpb] at hb; exact absurd hb (by simp [JSNum.isFinite])
    | negInf => rw [hpb] at hb; exact absurd hb (by simp [JSNum.isFinite])
  | nan => rw [hpa] at ha; exact absurd ha (by simp [JSNum.isFinite])
  | inf => rw [hpa] at ha; exact absurd ha (by simp [JSNum.isFinite])
  | negInf => rw [hpa] at ha; exact absurd ha (by simp [JSNum.isFinite])

theorem insertByPrice_sorted (x : EnrichedRow) (l : List EnrichedRow)
    (hx : x.price.isFinite = true) (hl : ∀ r ∈ l, r.price.isFinite = true)
    (hs : List.Sorted (fun a b : EnrichedRow => a.price.toQ ≤ b.price.toQ) l) :
    List.Sorted (fun a b : EnrichedRow => a.price.toQ ≤ b.price.toQ) (insertByPrice x l) := by
  induction l with
  | nil => simp [insertByPrice]
  | cons y ys ih =>
    have hy : y.price.isFinite = true := hl y (List.mem_cons_self y ys)
    have hys : ∀ r ∈ ys, r.price.isFinite = true :=
      fun r hr => hl r (List.mem_cons_of_mem _ hr)
    rw [List.sorted_cons] at hs
    unfold insertByPrice
    by_cases hle : sortLe x y
    · rw [if_pos hle]
      rw [sortLe_iff x y hx hy] at hle
      have hxy : x.price.toQ ≤ y.price.toQ := of_decide_eq_true hle
      rw [List.sorted_cons]
      refine ⟨?_, List.sorted_cons.mpr hs⟩
      intro b hb
      rcases List.mem_cons.mp hb with rfl | hbys
      · exact hxy
      · exact le_trans hxy (hs.1 b hbys)
    · rw [if_neg hle]
      rw [sortLe_iff x y hx hy] at hle
      have hyx : y.price.toQ ≤ x.price.toQ := le_of_not_le (by simpa using hle)
      rw [List.sorted_cons]
      refine ⟨?_, ih hys hs.2⟩
      intro b hb
      have : b ∈ x :: ys := (insertByPrice_perm x ys).mem_iff.mp hb
      rcases List.mem_cons.mp this with rfl | hbys
      · exact hyx
      · exact hs.1 b hbys

theorem sortByPrice_sorted (l : List EnrichedRow)
    (hfin : ∀ r ∈ l, r.price.isFinite = true) :
    List.Sorted (fun a b : EnrichedRow => a.price.toQ ≤ b.price.toQ) (sortByPrice l) := by
  induction l with
  | nil => simp [sortByPrice]
  | cons x xs ih =>
    have hx : x.price.isFinite = true := hfin x (List.mem_cons_self x xs)
    have hxs : ∀ r ∈ xs, r.price.isFinite = true :=
      fun r hr => hfin r (List.mem_cons_of_mem _ hr)
    unfold sortByPrice
    refine insertByPrice_sorted x (sortByPrice xs) hx ?_ (ih hxs)
    intro r hr
    exact hxs r ((sortByPrice_perm xs).mem_iff.mp hr)

theorem insertByPrice_filter (x : EnrichedRow) (l : List EnrichedRow) (p : ℚ)
    (hx : x.price.isFinite = true) (hl : ∀ r ∈ l, r.price.isFinite = true) :
    (insertByPrice x l).filter (fun r => r.price == JSNum.finite p)
      = if x.price == JSNum.finite p
        then x :: l.filter (fun r => r.price == JSNum.finite p)
        else l.filter (fun r => r.price == JSNum.finite p) := by
  induction l with
  | nil =>
    unfold insertByPrice
    rw [List.filter_cons]
  | cons y ys ih =>
    have hy : y.price.isFinite = true := hl y (List.mem_cons_self y ys)
    have hys : ∀ r ∈ ys, r.price.isFinite = true :=
      fun r hr => hl r (List.mem_cons_of_mem _ hr)
    unfold insertByPrice
    by_cases hle : sortLe x y
    · rw [if_pos hle, List.filter_cons]
    · rw [if_neg hle, List.filter_cons]
      rw [sortLe_iff x y hx hy] at hle
      have hyx : y.price.toQ < x.price.toQ := lt_of_not_le (by simpa using hle)
      by_cases hxp : (x.price == JSNum.finite p)
      · have hxpe : x.price = JSNum.finite p := by simpa using hxp
        have hyp : (y.price == JSNum.finite p) = false := by
          cases hpy : y.price with
          | finite qy =>
            rw [hpy, hxpe] at hyx
            have : qy ≠ p := by
              intro h
              rw [h] at hyx
              exact absurd hyx (by simp [JSNum.toQ])
            simpa using this
          | nan => rw [hpy] at hy; exact absurd hy (by simp [JSNum.isFinite])
          | inf => rw [hpy] at hy; exact absurd hy (by simp [JSNum.isFinite])
          | negInf => rw [hpy] at hy; exact absurd hy (by simp [JSNum.isFinite])
        rw [hyp, if_pos hxp, List.filter_cons, hyp]
        simp only [Bool.false_eq_true, if_false]
        rw [ih hys, if_pos hxp]
      · rw [if_neg hxp, ih hys, if_neg hxp, List.filter_cons]

theorem sortByPrice_filter (l : List EnrichedRow) (p : ℚ)
    (hfin : ∀ r ∈ l, r.price.isFinite = true) :
    (sortByPrice l).filter (fun r => r.price == JSNum.finite p)
      = l.filter (fun r => r.price == JSNum.finite p) := by
  induction l with
  | nil => rfl
  | cons x xs ih =>
    have hx : x.price.isFinite = true := hfin x (List.mem_cons_self x xs)
    have hxs : ∀ r ∈ xs, r.price.isFinite = true :=
      fun r hr => hfin r (List.mem_cons_of_mem _ hr)
    unfold sortByPrice
    rw [insertByPrice_filter x (sortByPrice xs) p hx
      (fun r hr => hxs r ((sortByPrice_perm xs).mem_iff.mp hr)), ih hxs, List.filter_cons]

/-! ## Claim C7: the output is sorted by ascending price, stably -/

/-- C7: for rows with finite prices (guaranteed by the upstream filter),
the sort stage returns a permutation of its input that is sorted
non-decreasing by price, and rows of any equal price keep exactly the
relative order in which the enrichment stage produced them. -/
theorem sort_sorted_stable (l : List EnrichedRow)
    (hfin : ∀ r ∈ l, r.price.isFinite = true) :
    List.Sorted (fun a b : EnrichedRow => a.price.toQ ≤ b.price.toQ) (sortByPrice l) ∧
    (∀ p : ℚ, (sortByPrice l).filter (fun r => r.price == JSNum.finite p)
        = l.filter (fun r => r.price == JSNum.finite p)) ∧
    (sortByPrice l).Perm l :=
  ⟨sortByPrice_sorted l hfin, fun p => sortByPrice_filter l p hfin, sortByPrice_perm l⟩

/-- Witness for C7 at concrete data: the sort is sorted and keeps the
equal-priced rows `A`, `B` in their original relative order. -/
theorem sort_sorted_stable_witness :
    List.Sorted (fun a b : EnrichedRow => a.price.toQ ≤ b.price.toQ)
      (sortByPrice enrichedDemoRows) ∧
    (sortByPrice enrichedDemoRows).filter (fun r => r.price == JSNum.finite 800000)
      = enrichedDemoRows.filter (fun r => r.price == JSNum.finite 800000) :=
  ⟨(sort_sorted_stable enrichedDemoRows (by decide)).1,
   (sort_sorted_stable enrichedDemoRows (by decide)).2.1 800000⟩

/-! ## Claim C6: the enrichment left join never drops a candidate -/

/-- C6: enrichment (followed by the sort) emits exactly one output row
per deduplicated candidate; a candidate whose key misses the climate
index still appears, with null `flood_zone` and `avg_rain_inches`. -/
theorem enrich_left_join_total (idx : List (String × ClimateEntry))
    (cands : List Candidate) :
    (sortByPrice (cands.map (enrichOne idx))).length = cands.length ∧
    ∀ r ∈ cands, enrichOne idx r ∈ sortByPrice (cands.map (enrichOne idx)) ∧
      (mapGet idx r.napn = none →
        (enrichOne idx r).flood_zone = none ∧ (enrichOne idx r).avg_rain_inches = none) := by
  refine ⟨?_, fun r hr => ⟨?_, fun hmiss => ?_⟩⟩
  · rw [(sortByPrice_perm _).length_eq, List.length_map]
  · exact (sortByPrice_perm _).mem_iff.mpr (List.mem_map_of_mem (enrichOne idx) hr)
  · constructor <;> simp [enrichOne, hmiss]

/-- Witness for C6: a singleton candidate list against an empty climate
index: the row survives with null climate attributes. -/
theorem enrich_left_join_total_witness :
    (sortByPrice ([pineAveCandidate].map (enrichOne []))).length = 1 ∧
    enrichOne [] pineAveCandidate ∈ sortByPrice ([pineAveCandidate].map (enrichOne [])) ∧
    (enrichOne [] pineAveCandidate).flood_zone = none ∧
    (enrichOne [] pineAveCandidate).avg_rain_inches = none := by
  have h := enrich_left_join_total [] [pineAveCandidate]
  have h2 := h.2 pineAveCandidate (List.mem_cons_self _ _)
  exact ⟨h.1, h2.1, (h2.2 rfl).1, (h2.2 rfl).2⟩

/-! ## Claim C5: `price_per_sqft = round(price / sqft)` on every output row -/

/-- C5: every output row of the pipeline satisfies
`price_per_sqft = Math.round(price / sqft)` computed from the row's own
`price` and `sqft` fields; in particular for finite `price` and finite
nonzero `sqft` it equals `⌊price / sqft + 1/2⌋` exactly. -/
theorem price_per_sqft_round (rows : List Listing) (crows : List Climate) :
    ∀ row ∈ enrichedPipeline rows crows,
      row.price_per_sqft = jsRound (jsDiv row.price row.sqft) ∧
      (∀ qp qs : ℚ, row.price = .finite qp → row.sqft = .finite qs → qs ≠ 0 →
        row.price_per_sqft = .finite (⌊qp / qs + 1 / 2⌋ : ℤ)) := by
  intro row hrow
  unfold enrichedPipeline at hrow
  have hmem : row ∈ (dedupListings (cleanListings rows)).map
      (enrichOne (buildClimateIndex crows)) := (sortByPrice_perm _).mem_iff.mp hrow
  obtain ⟨r, _, hre⟩ := List.mem_map.mp hmem
  have hps : row.price_per_sqft = jsRound (jsDiv row.price row.sqft) := by
    rw [← hre]
    rfl
  refine ⟨hps, fun qp qs hqp hqs hqs0 => ?_⟩
  rw [hps, hqp, hqs, jsDiv_finite qp qs hqs0,
    show jsRound (JSNum.finite (qp / qs)) = JSNum.finite ((roundQ (qp / qs) : ℤ) : ℚ) from rfl,
    roundQ_eq_floor]

/-! ## Claim C1: deduplication keeps, per key, the first candidate of
minimal price -/

theorem JSNum.lt_toQ (a b : JSNum) (ha : a.isFinite = true) (hb : b.isFinite = true) :
    JSNum.lt a b = true ↔ a.toQ < b.toQ := by
  cases a with
  | finite qa =>
    cases b with
    | finite qb => simp [JSNum.lt, JSNum.toQ]
    | nan => exact absurd hb (by simp [JSNum.isFinite])
    | inf => exact absurd hb (by simp [JSNum.isFinite])
    | negInf => exact absurd hb (by simp [JSNum.isFinite])
  | nan => exact absurd ha (by simp [JSNum.isFinite])
  | inf => exact absurd ha (by simp [JSNum.isFinite])
  | negInf => exact absurd ha (by simp [JSNum.isFinite])

theorem firstMin_cons (r : Candidate) (rs : List Candidate) :
    firstMin (r :: rs)
      = (match firstMin rs with
         | none => some r
         | some m => if JSNum.lt m.price r.price then some m else some r) := rfl

theorem firstMin_eq_none_iff (g : List Candidate) : firstMin g = none ↔ g = [] := by
  cases g with
  | nil => simp [firstMin]
  | cons r rs =>
    rw [firstMin_cons]
    constructor
    · intro h
      cases hm : firstMin rs with
      | none => rw [hm] at h; exact absurd h (by simp)
      | some m =>
        rw [hm] at h
        dsimp only at h
        split at h <;> exact absurd h (by simp)
    · intro h
      exact absurd h (by simp)

theorem firstMin_mem (g : List Candidate) (m : Candidate) (h : firstMin g = some m) :
    m ∈ g := by
  induction g with
  | nil => exact absurd h (by simp [firstMin])
  | cons r rs ih =>
    rw [firstMin_cons] at h
    cases hm : firstMin rs with
    | none =>
      rw [hm] at h
      cases h
      exact List.mem_cons_self _ _
    | some m2 =>
      rw [hm] at h
      dsimp only at h
      by_cases hlt : JSNum.lt m2.price r.price
      · rw [if_pos hlt] at h
        cases h
        exact List.mem_cons_of_mem _ (ih hm)
      · rw [if_neg hlt] at h
        cases h
        exact List.mem_cons_self _ _

theorem foldl_firstMinStep_eq_firstMin (g : List Candidate)
    (hfin : ∀ r ∈ g, r.price.isFinite = true) :
    List.foldl firstMinStep none g = firstMin g := by
  suffices h : ∀ (g : List Candidate) (b : Candidate), b.price.isFinite = true →
      (∀ r ∈ g, r.price.isFinite = true) →
      List.foldl firstMinStep (some b) g
        = (match firstMin g with
           | none => some b
           | some m => if JSNum.lt m.price b.price then some m else some b) by
    cases g with
    | nil => rfl
    | cons r rs =>
      have hr : r.price.isFinite = true := hfin r (List.mem_cons_self r rs)
      have hrs : ∀ x ∈ rs, x.price.isFinite = true :=
        fun x hx => hfin x (List.mem_cons_of_mem _ hx)
      rw [List.foldl_cons, show firstMinStep none r = some r from rfl,
        h rs r hr hrs, firstMin_cons]
  intro g
  induction g with
  | nil =>
    intro b _ _
    rfl
  | cons r rs ih =>
    intro b hb hfin
    have hr : r.price.isFinite = true := hfin r (List.mem_cons_self r rs)
    have hrs : ∀ x ∈ rs, x.price.isFinite = true :=
      fun x hx => hfin x (List.mem_cons_of_mem _ hx)
    rw [List.foldl_cons, show firstMinStep (some b) r
        = (if JSNum.lt r.price b.price then some r else some b) from rfl]
    by_cases hrb : JSNum.lt r.price b.price
    · rw [if_pos hrb, ih r hr hrs, firstMin_cons]
      have hrbQ : r.price.toQ < b.price.toQ := (JSNum.lt_toQ _ _ hr hb).mp hrb
      cases hm : firstMin rs with
      | none =>
        dsimp only
        rw [if_pos hrb]
      | some m =>
        have hmfin : m.price.isFinite = true := hrs m (firstMin_mem rs m hm)
        dsimp only
        by_cases hmr : JSNum.lt m.price r.price
        · have hmrQ : m.price.toQ < r.price.toQ := (JSNum.lt_toQ _ _ hmfin hr).mp hmr
          have hmb : JSNum.lt m.price b.price = true :=
            (JSNum.lt_toQ _ _ hmfin hb).mpr (lt_trans hmrQ hrbQ)
          rw [if_pos hmr]
          dsimp only
          rw [if_pos hmb]
        · rw [if_neg hmr]
          dsimp only
          rw [if_pos hrb]
    · rw [if_neg hrb, ih b hb hrs, firstMin_cons]
      have hbrQ : b.price.toQ ≤ r.price.toQ :=
        le_of_not_lt (fun hc => hrb ((JSNum.lt_toQ _ _ hr hb).mpr hc))
      cases hm : firstMin rs with
      | none =>
        dsimp only
        rw [if_neg hrb]
      | some m =>
        have hmfin : m.price.isFinite = true := hrs m (firstMin_mem rs m hm)
        dsimp only
        by_cases hmr : JSNum.lt m.price r.price
        · rw [if_pos hmr]
        · rw [if_neg hmr]
          dsimp only
          rw [if_neg hrb]
          have hbm : b.price.toQ ≤ m.price.toQ := by
            refine le_trans hbrQ (le_of_not_lt (fun hc => hmr ?_))
            exact (JSNum.lt_toQ _ _ hmfin hr).mpr hc
          have hmb : JSNum.lt m.price b.price = false := by
            rw [Bool.eq_false_iff]
            intro hc
            exact absurd ((JSNum.lt_toQ _ _ hmfin hb).mp hc) (not_lt.mpr hbm)
          rw [hmb]
          simp only [Bool.false_eq_true, if_false]

theorem firstMin_spec (g : List Candidate) :
    ∀ m : Candidate, (∀ r ∈ g, r.price.isFinite = true) → firstMin g = some m →
      ∃ g₁ g₂, g = g₁ ++ m :: g₂
        ∧ (∀ r ∈ g₁, m.price.toQ < r.price.toQ)
        ∧ (∀ r ∈ g₂, m.price.toQ ≤ r.price.toQ) := by
  induction g with
  | nil =>
    intro m _ h
    exact absurd h (by simp [firstMin])
  | cons r rs ih =>
    intro m hfin h
    have hr : r.price.isFinite = true := hfin r (List.mem_cons_self r rs)
    have hrs : ∀ x ∈ rs, x.price.isFinite = true :=
      fun x hx => hfin x (List.mem_cons_of_mem _ hx)
    rw [firstMin_cons] at h
    cases hm : firstMin rs with
    | none =>
      rw [hm] at h
      cases h
      have hnil : rs = [] := (firstMin_eq_none_iff rs).mp hm
      refine ⟨[], rs, rfl, by simp, ?_⟩
      rw [hnil]
      simp
    | some m2 =>
      have hm2 : m2 ∈ rs := firstMin_mem rs m2 hm
      have hm2fin : m2.price.isFinite = true := hrs m2 hm2
      obtain ⟨g₁, g₂, hg, h1, h2⟩ := ih m2 hrs hm
      rw [hm] at h
      dsimp only at h
      by_cases hlt : JSNum.lt m2.price r.price
      · rw [if_pos hlt] at h
        cases h
        have hltQ : m.price.toQ < r.price.toQ := (JSNum.lt_toQ _ _ hm2fin hr).mp hlt
        refine ⟨r :: g₁, g₂, by rw [hg]; rfl, ?_, h2⟩
        intro x hx
        rcases List.mem_cons.mp hx with rfl | hxg
        · exact hltQ
        · exact h1 x hxg
      · rw [if_neg hlt] at h
        cases h
        have hrm2 : r.price.toQ ≤ m2.price.toQ :=
          le_of_not_lt (fun hc => hlt ((JSNum.lt_toQ _ _ hm2fin hr).mpr hc))
        refine ⟨[], rs, rfl, by simp, ?_⟩
        intro x hx
        rw [hg] at hx
        rcases List.mem_append.mp hx with hxg | hxg
        · exact le_trans hrm2 (le_of_lt (h1 x hxg))
        · rcases List.mem_cons.mp hxg with rfl | hxg2
          · exact hrm2
          · exact le_trans hrm2 (h2 x hxg2)

theorem mapGet_dedupStep (m : List (String × Candidate)) (r : Candidate) (k : String) :
    mapGet (dedupStep m r) k
      = if r.napn = k then firstMinStep (mapGet m k) r else mapGet m k := by
  unfold dedupStep
  cases hg : mapGet m r.napn with
  | none =>
    dsimp only
    by_cases hk : r.napn = k
    · rw [if_pos hk, ← hk, hg]
      rw [show firstMinStep none r = some r from rfl]
      exact mapGet_mapSet_self m r.napn r
    · rw [if_neg hk]
      exact mapGet_mapSet_ne m r.napn k r hk
  | some e =>
    dsimp only
    by_cases hk : r.napn = k
    · rw [if_pos hk, ← hk, hg]
      rw [show firstMinStep (some e) r
          = (if JSNum.lt r.price e.price then some r else some e) from rfl]
      by_cases hlt : JSNum.lt r.price e.price
      · rw [if_pos hlt, if_pos hlt]
        exact mapGet_mapSet_self m r.napn r
      · rw [if_neg hlt, if_neg hlt]
        exact hg
    · rw [if_neg hk]
      by_cases hlt : JSNum.lt r.price e.price
      · rw [if_pos hlt]
        exact mapGet_mapSet_ne m r.napn k r hk
      · rw [if_neg hlt]

theorem mapGet_foldl_dedupStep (l : List Candidate) (m : List (String × Candidate))
    (k : String) :
    mapGet (l.foldl dedupStep m) k
      = List.foldl firstMinStep (mapGet m k) (l.filter (fun r => r.napn == k)) := by
  induction l generalizing m with
  | nil => rfl
  | cons r l ih =>
    rw [List.foldl_cons, ih, List.filter_cons]
    by_cases hk : r.napn = k
    · have hkb : (r.napn == k) = true := by simpa using hk
      rw [if_pos hkb, List.foldl_cons, mapGet_dedupStep, if_pos hk]
    · rw [if_neg (show ¬ ((r.napn == k) = true) by simp [hk]), mapGet_dedupStep, if_neg hk]

theorem mem_mapSet {α : Type} (m : List (String × α)) (k : String) (v : α)
    (p : String × α) (hp : p ∈ mapSet m k v) : p = (k, v) ∨ p ∈ m := by
  unfold mapSet at hp
  split at hp
  · obtain ⟨q, hq, hqp⟩ := List.mem_map.mp hp
    by_cases hqk : q.1 == k
    · rw [if_pos hqk] at hqp
      exact Or.inl hqp.symm
    · rw [if_neg hqk] at hqp
      exact Or.inr (hqp ▸ hq)
  · rcases List.mem_append.mp hp with h | h
    · exact Or.inr h
    · exact Or.inl (List.mem_singleton.mp h)

theorem bestByApn_coherent (l : List Candidate) :
    ∀ p ∈ bestByApn l, p.2.napn = p.1 := by
  unfold bestByApn
  suffices h : ∀ (m : List (String × Candidate)), (∀ p ∈ m, p.2.napn = p.1) →
      ∀ p ∈ l.foldl dedupStep m, p.2.napn = p.1 by
    exact h [] (by simp)
  induction l with
  | nil =>
    intro m hm
    simpa using hm
  | cons r l ih =>
    intro m hm
    rw [List.foldl_cons]
    refine ih _ ?_
    intro p hp
    unfold dedupStep at hp
    cases hg : mapGet m r.napn with
    | none =>
      rw [hg] at hp
      dsimp only at hp
      rcases mem_mapSet _ _ _ _ hp with rfl | hpm
      · rfl
      · exact hm p hpm
    | some e =>
      rw [hg] at hp
      dsimp only at hp
      split at hp
      · rcases mem_mapSet _ _ _ _ hp with rfl | hpm
        · rfl
        · exact hm p hpm
      · exact hm p hp

theorem keys_map_mapSetFn {α : Type} (m : List (String × α)) (k : String) (v : α) :
    (m.map (fun p => if p.1 == k then (k, v) else p)).map Prod.fst = m.map Prod.fst := by
  rw [List.map_map]
  refine List.map_congr_left ?_
  intro p _
  by_cases hp : p.1 == k
  · have : p.1 = k := by simpa using hp
    simp [Function.comp, hp, this]
  · simp [Function.comp, hp]

theorem mapSet_keys_nodup {α : Type} (m : List (String × α)) (k : String) (v : α)
    (hnd : (m.map Prod.fst).Nodup) : ((mapSet m k v).map Prod.fst).Nodup := by
  unfold mapSet
  split
  · rw [keys_map_mapSetFn]
    exact hnd
  · rename_i hany
    rw [List.map_append]
    rw [List.nodup_append]
    refine ⟨hnd, by simp, ?_⟩
    intro x hx
    obtain ⟨p, hp, hpx⟩ := List.mem_map.mp hx
    simp only [List.map_cons, List.map_nil, List.mem_singleton]
    intro hxk
    apply hany
    refine List.any_eq_true.mpr ⟨p, hp, ?_⟩
    rw [show p.1 = x from hpx, hxk]
    simp

theorem bestByApn_keys_nodup (l : List Candidate) :
    ((bestByApn l).map Prod.fst).Nodup := by
  unfold bestByApn
  suffices h : ∀ (m : List (String × Candidate)), (m.map Prod.fst).Nodup →
      ((l.foldl dedupStep m).map Prod.fst).Nodup by
    exact h [] (by simp)
  induction l with
  | nil =>
    intro m hm
    simpa using hm
  | cons r l ih =>
    intro m hm
    rw [List.foldl_cons]
    refine ih _ ?_
    unfold dedupStep
    cases hg : mapGet m r.napn with
    | none => exact mapSet_keys_nodup m r.napn r hm
    | some e =>
      dsimp only
      split
      · exact mapSet_keys_nodup m r.napn r hm
      · exact hm

theorem assoc_values_filter (m : List (String × Candidate)) (k : String)
    (hnd : (m.map Prod.fst).Nodup) (hcoh : ∀ p ∈ m, p.2.napn = p.1) :
    (m.map (fun p => p.2)).filter (fun r => r.napn == k) = (mapGet m k).toList := by
  induction m with
  | nil => rfl
  | cons p m ih =>
    have hpc : p.2.napn = p.1 := hcoh p (List.mem_cons_self p m)
    have hnd2 : (m.map Prod.fst).Nodup := (List.nodup_cons.mp (by simpa using hnd)).2
    have hpk : p.1 ∉ m.map Prod.fst := (List.nodup_cons.mp (by simpa using hnd)).1
    have hcoh2 : ∀ q ∈ m, q.2.napn = q.1 := fun q hq => hcoh q (List.mem_cons_of_mem _ hq)
    rw [List.map_cons, List.filter_cons]
    by_cases hk : p.1 = k
    · have hcond : (p.2.napn == k) = true := by
        rw [hpc, hk]
        simp
      rw [if_pos hcond]
      have hget : mapGet (p :: m) k = some p.2 := by
        unfold mapGet
        have : List.find? (fun q => q.1 == k) (p :: m) = some p :=
          List.find?_cons_of_pos _ (by simpa using hk)
        rw [this]
        rfl
      rw [hget]
      have : (m.map (fun p => p.2)).filter (fun r => r.napn == k) = [] := by
        rw [List.filter_eq_nil_iff]
        intro r hr
        obtain ⟨q, hq, hqr⟩ := List.mem_map.mp hr
        have : q.2.napn = q.1 := hcoh2 q hq
        have hq1 : q.1 ≠ k := by
          intro hc
          apply hpk
          rw [hk, ← hc]
          exact List.mem_map.mpr ⟨q, hq, rfl⟩
        rw [← hqr, this]
        simpa using hq1
      rw [this]
      rfl
    · have hcond : (p.2.napn == k) = false := by
        rw [hpc]
        simpa using hk
      rw [if_neg (show ¬ ((p.2.napn == k) = true) by simp [hcond])]
      have hget : mapGet (p :: m) k = mapGet m k := by
        unfold mapGet
        have : List.find? (fun q => q.1 == k) (p :: m) = List.find? (fun q => q.1 == k) m :=
          List.find?_cons_of_neg _ (by simpa using hk)
        rw [this]
      rw [hget]
      exact ih hnd2 hcoh2

/-- C1: per normalized APN, deduplication retains exactly one candidate
(none when the key does not occur in the cleaned input), and the retained
candidate is the first, in input order, among those of minimal price:
every earlier group member is strictly more expensive and every later one
at least as expensive. -/
theorem dedup_retains_first_min (l : List Candidate)
    (hfin : ∀ r ∈ l, r.price.isFinite = true) (k : String) :
    (dedupListings l).filter (fun r => r.napn == k) = (mapGet (bestByApn l) k).toList
    ∧ (mapGet (bestByApn l) k = none ↔ l.filter (fun r => r.napn == k) = [])
    ∧ ∀ m, mapGet (bestByApn l) k = some m →
        ∃ g₁ g₂, l.filter (fun r => r.napn == k) = g₁ ++ m :: g₂
          ∧ (∀ r ∈ g₁, m.price.toQ < r.price.toQ)
          ∧ (∀ r ∈ g₂, m.price.toQ ≤ r.price.toQ) := by
  have hfilterfin : ∀ r ∈ l.filter (fun r => r.napn == k), r.price.isFinite = true :=
    fun r hr => hfin r (List.mem_of_mem_filter hr)
  have h0 : mapGet (bestByApn l) k = firstMin (l.filter (fun r => r.napn == k)) := by
    rw [show bestByApn l = l.foldl dedupStep [] from rfl,
      mapGet_foldl_dedupStep, mapGet_nil]
    exact foldl_firstMinStep_eq_firstMin _ hfilterfin
  refine ⟨?_, ?_, ?_⟩
  · exact assoc_values_filter (bestByApn l) k (bestByApn_keys_nodup l) (bestByApn_coherent l)
  · rw [h0]
    exact firstMin_eq_none_iff _
  · intro m hm
    rw [h0] at hm
    exact firstMin_spec _ m hfilterfin hm

/-- Witness for C1: of the two demo candidates sharing key `1234567890`,
dedup retains exactly the cheaper one. -/
theorem dedup_retains_first_min_witness :
    (dedupListings [oakStCandidate, oakStCheaperCandidate]).filter
        (fun r => r.napn == "1234567890")
      = (mapGet (bestByApn [oakStCandidate, oakStCheaperCandidate]) "1234567890").toList :=
  (dedup_retains_first_min [oakStCandidate, oakStCheaperCandidate]
    (by decide) "1234567890").1

/-! ## Claim C3: a present, non-empty, unparsable `avg_rain_inches`
produces `NaN` in the output, not `null` (code bug) -/

/-- C3 (failing input): with `avg_rain_inches = "abc"` the climate index
stores `num("abc") = NaN`, and the joined output row carries
`avg_rain_inches = NaN` — not `null` as the specification requires.  The
`null`-defaulting on source line 67 only covers absent or empty values,
never a failed coercion. -/
theorem avg_rain_nan_not_null :
    mapGet (buildClimateIndex [rainBugClimate]) "1"
      = some { flood_zone := some "X", avg_rain_inches := some JSNum.nan } ∧
    (enrichedPipeline [rainBugListing] [rainBugClimate]).map (fun r => r.avg_rain_inches)
      = [some JSNum.nan] :=
  ⟨by decide, by decide⟩

/-! ## Claim C4: `sqft = 0` passes the filter and produces a non-finite
`price_per_sqft` -/

/-- Counterexample to C4 as stated: the filter admits `sqft = 0`
(`Number.isFinite(0)` holds), and the resulting output row has
`price_per_sqft = Math.round(100000 / 0) = Infinity` — a non-finite
value, and not `NaN` either. -/
theorem price_per_sqft_nonfinite_counterexample :
    (cleanListing zeroSqftListing).isSome = true ∧
    (enrichedPipeline [zeroSqftListing] []).map (fun r => r.price_per_sqft)
      = [JSNum.inf] ∧
    JSNum.inf.isFinite = false :=
  ⟨by decide, by decide, by decide⟩

/-- C4 (amended): the computation is total (never raises); for a
candidate with finite price and finite *nonzero* sqft the result is
finite; but the filter only guarantees finiteness, and a candidate with
`sqft = 0` yields a non-finite result: `Infinity` for positive price and
`NaN` for price zero. -/
theorem price_per_sqft_amended (idx : List (String × ClimateEntry)) (r : Candidate)
    (hp : r.price.isFinite = true) (hs : r.sqft.isFinite = true) :
    (r.sqft.toQ ≠ 0 → ((enrichOne idx r).price_per_sqft).isFinite = true) ∧
    (r.sqft = .finite 0 → 0 < r.price.toQ → (enrichOne idx r).price_per_sqft = .inf) ∧
    (r.sqft = .finite 0 → r.price = .finite 0 → (enrichOne idx r).price_per_sqft = .nan) := by
  have hpps : (enrichOne idx r).price_per_sqft = jsRound (jsDiv r.price r.sqft) := rfl
  cases hqp : r.price with
  | finite qp =>
    cases hqs : r.sqft with
    | finite qs =>
      refine ⟨fun hns => ?_, fun hz hpos => ?_, fun hz hzero => ?_⟩
      · have hqs0 : qs ≠ 0 := by
          simpa [JSNum.toQ] using hns
        rw [hpps, hqp, hqs, jsDiv_finite qp qs hqs0]
        rfl
      · have hqs0 : qs = 0 := (JSNum.finite.injEq _ _).mp hz
        have hqp0 : 0 < qp := by
          simpa [JSNum.toQ] using hpos
        rw [hpps, hqp, hqs, hqs0]
        rw [show jsDiv (JSNum.finite qp) (JSNum.finite 0)
            = (if (0 : ℚ) = 0 then (if qp = 0 then JSNum.nan
                else if qp < 0 then JSNum.negInf else JSNum.inf)
               else JSNum.finite (Rat.divInt (qp.num * (0 : ℚ).den)
                 ((0 : ℚ).num * qp.den))) from rfl]
        rw [if_pos rfl, if_neg (ne_of_gt hqp0), if_neg (not_lt.mpr (le_of_lt hqp0))]
        rfl
      · have hqs0 : qs = 0 := (JSNum.finite.injEq _ _).mp hz
        have hqp0 : qp = 0 := (JSNum.finite.injEq _ _).mp hzero
        rw [hpps, hqp, hqs, hqs0, hqp0]
        rfl
    | nan => rw [hqs] at hs; exact absurd hs (by simp [JSNum.isFinite])
    | inf => rw [hqs] at hs; exact absurd hs (by simp [JSNum.isFinite])
    | negInf => rw [hqs] at hs; exact absurd hs (by simp [JSNum.isFinite])
  | nan => rw [hqp] at hp; exact absurd hp (by simp [JSNum.isFinite])
  | inf => rw [hqp] at hp; exact absurd hp (by simp [JSNum.isFinite])
  | negInf => rw [hqp] at hp; exact absurd hp (by simp [JSNum.isFinite])

/-- Witness for the amended C4: a nonzero-sqft candidate gets a finite
`price_per_sqft`. -/
theorem price_per_sqft_amended_witness :
    ((enrichOne [] oakStCheaperCandidate).price_per_sqft).isFinite = true :=
  (price_per_sqft_amended [] oakStCheaperCandidate (by decide) (by decide)).1 (by decide)

/-! ## Witness data for C5: the demo scenario -/

/-- Witness for C5 on the demo scenario: the output row for the demo
listings has `price_per_sqft = ⌊440000 / 1600 + 1/2⌋ = 275`. -/
theorem price_per_sqft_round_witness :
    oakStEnrichedRow.price_per_sqft
      = JSNum.finite ((⌊(440000 : ℚ) / 1600 + 1 / 2⌋ : ℤ) : ℚ) :=
  ((price_per_sqft_round [oakStRow, oakStCheaperRow] [oakStClimate]
      oakStEnrichedRow (by decide)).2) 440000 1600 (by decide) (by decide) (by norm_num)
